import Mathlib

/-!
Formal model of the spectral-simulation pipeline in simulasi.py: per-species
line-spectrum synthesis (partition function, line intensities, Gaussian
profiles), mixture post-processing (Saha split, instrument convolution, peak
normalization), the stratified sample scheduler, and the dataset driver
(content-hash deduplication and persistence merge).  Float values appearing in
the program are modelled as rationals; arithmetic that involves transcendental
functions (exp, sqrt, pi, real powers) is modelled over the real numbers.
-/

namespace Simulasi

/-- PHYSICAL_CONSTANTS, entry k_B (eV/K). -/
def k_B : ℚ := 8.617333262145e-5

/-- PHYSICAL_CONSTANTS, entry m_e (kg). -/
def m_e : ℚ := 9.1093837e-31

/-- PHYSICAL_CONSTANTS, entry h (eV·s). -/
def planck_h : ℚ := 4.135667696e-15

/-- BASE_ELEMENTS list. -/
def BASE_ELEMENTS : List String := ["Si", "Al", "Fe", "Ca", "O", "Na", "N", "Ni", "Cr", "Cl"]

/-- REQUIRED_ELEMENTS: for each base element the two species keys elem_1, elem_2. -/
def REQUIRED_ELEMENTS : List String := (BASE_ELEMENTS.map (fun e => [e ++ "_1", e ++ "_2"])).flatten

/-- np.linspace a b n: n evenly spaced points from a to b inclusive. -/
def linspace (a b : ℚ) (n : ℕ) : List ℚ :=
  (List.range n).map (fun i : ℕ => a + (i : ℚ) * ((b - a) / ((n : ℚ) - 1)))

/-- np.searchsorted (side left) on a sorted list: the number of entries strictly
below v, which is the first index whose entry is at least v. -/
def searchsorted (l : List ℚ) (v : ℚ) : ℕ := l.countP (fun x => decide (x < v))

/-- SpectrumSimulator._gaussian_profile: the normalized Gaussian density with
width sigma centered at a line wavelength, evaluated at every grid point. -/
noncomputable def gaussian_profile (sigma : ℚ) (grid : List ℚ) (center : ℚ) : List ℝ :=
  grid.map (fun x : ℚ =>
    Real.exp (-(1 / 2) * (((x : ℝ) - (center : ℝ)) / (sigma : ℝ)) ^ 2) /
      ((sigma : ℝ) * Real.sqrt (2 * Real.pi)))

/-- The Boltzmann-weighted sum over energy levels (pairs of energy and
degeneracy) used inside SpectrumSimulator._partition_function. -/
noncomputable def boltzmann_sum (levels : List (ℚ × ℚ)) (T : ℚ) : ℝ :=
  (levels.map (fun p : ℚ × ℚ => (p.2 : ℝ) * Real.exp (-(p.1 : ℝ) / ((k_B : ℝ) * (T : ℝ))))).sum

/-- SpectrumSimulator._partition_function: the Boltzmann sum, with the Python
idiom sum(...) or 1.0 replacing an exactly-zero sum by 1. -/
noncomputable def partition_function (levels : List (ℚ × ℚ)) (T : ℚ) : ℝ :=
  if boltzmann_sum levels T = 0 then 1 else boltzmann_sum levels T

/-- SpectrumSimulator._calculate_intensity: per-line emission intensity. -/
noncomputable def calculate_intensity (T Ek gk Aki : ℚ) (Z : ℝ) : ℝ :=
  ((gk : ℝ) * (Aki : ℝ) * Real.exp (-(Ek : ℝ) / ((k_B : ℝ) * (T : ℝ)))) / Z

/-- torch.max(torch.abs(t)) over a spectrum, with 0 for the empty spectrum. -/
noncomputable def maxAbs (l : List ℝ) : ℝ := (l.map abs).foldr max 0

/-- MixedSpectrumSimulator._normalize_intensity: scale the spectrum so its
largest absolute value becomes the target, returning the input unchanged when
that largest absolute value is zero. -/
noncomputable def normalize_intensity (l : List ℝ) (target : ℚ) : List ℝ :=
  if maxAbs l = 0 then l else l.map (fun x => x / maxAbs l * (target : ℝ))

/-- One cleaned NIST transition row: wavelength, Einstein coefficient, upper
and lower energies, lower and upper degeneracies.  A None field models a null
entry, which the simulation loops skip. -/
structure NistRow where
  wl : Option ℚ
  Aki : Option ℚ
  Ek : Option ℚ
  Ei : Option ℚ
  gi : Option ℚ
  gk : Option ℚ

/-- Insert an energy into the level table only when absent (dict semantics:
the first-seen degeneracy wins for each distinct energy). -/
def add_level (levels : List (ℚ × ℚ)) (E g : ℚ) : List (ℚ × ℚ) :=
  if levels.any (fun p => decide (p.1 = E)) then levels else levels ++ [(E, g)]

/-- The levels dict built at the top of SpectrumSimulator.simulate: for each
row with all fields present, record Ei with gi and then Ek with gk. -/
def build_levels (rows : List NistRow) : List (ℚ × ℚ) :=
  rows.foldl (fun lv r =>
    match r.wl, r.Aki, r.Ek, r.Ei, r.gi, r.gk with
    | some _, some _, some Ek, some Ei, some gi, some gk =>
        add_level (add_level lv Ei gi) Ek gk
    | _, _, _, _, _, _ => lv) []

/-- REQUIRED_ELEMENTS.index with the Python fallback: the index of the label in
the catalog, or the catalog length when it is absent. -/
def class_index (label : String) : ℕ := REQUIRED_ELEMENTS.indexOf label

/-- The slice accumulation in SpectrumSimulator.simulate: with
start = max(0, idx - len(prof) / 2) and stop = min(res, start + len(prof)),
add prof[i - start] to every spectrum bin i in [start, stop).  Natural-number
subtraction realizes the max with 0. -/
noncomputable def add_profile (res idx : ℕ) (prof spec : List ℝ) : List ℝ :=
  let start := idx - prof.length / 2
  let stop := min res (start + prof.length)
  spec.mapIdx (fun i x => if start ≤ i ∧ i < stop then x + prof.getD (i - start) 0 else x)

/-- Accumulator for one temperature pass of SpectrumSimulator.simulate. -/
structure TempAcc where
  intens : List ℝ
  contrib : List ℝ
  peakIdx : List ℕ
  peakLab : List ℕ
  recs : List (ℚ × ℝ × String × ℕ)

/-- One transition of the per-temperature loop of SpectrumSimulator.simulate:
rows with a missing field are skipped; otherwise the line intensity is
computed, the line is located on the grid, and when the located bin is inside
the grid the scaled Gaussian profile is accumulated and the line is recorded. -/
noncomputable def line_step (res : ℕ) (grid : List ℚ) (sigma : ℚ) (pct : ℝ)
    (label : String) (T : ℚ) (Z : ℝ) (acc : TempAcc) (r : NistRow) : TempAcc :=
  match r.wl, r.Aki, r.Ek, r.Ei, r.gi, r.gk with
  | some wl, some Aki, some Ek, some _, some _, some gk =>
      let I := calculate_intensity T Ek gk Aki Z
      let idx := searchsorted grid wl
      if idx < res then
        let gc := (gaussian_profile sigma grid wl).map (fun p => I * pct * p)
        { intens := add_profile res idx gc acc.intens
          contrib := add_profile res idx gc acc.contrib
          peakIdx := acc.peakIdx ++ [idx]
          peakLab := acc.peakLab ++ [class_index label]
          recs := acc.recs ++ [(wl, I * pct, label, idx)] }
      else acc
  | _, _, _, _, _, _ => acc

/-- One full temperature pass of SpectrumSimulator.simulate, starting from
zero spectra and folding every row through line_step. -/
noncomputable def temp_pass (res : ℕ) (grid : List ℚ) (sigma : ℚ) (pct : ℝ)
    (label : String) (rows : List NistRow) (T : ℚ) (Z : ℝ) : TempAcc :=
  rows.foldl (line_step res grid sigma pct label T Z)
    ⟨List.replicate res 0, List.replicate res 0, [], [], []⟩

/-- The tuple returned by SpectrumSimulator.simulate. -/
structure SimResult where
  wavelengths : List ℚ
  spectra : List (List ℝ)
  peak_indices : List (List ℕ)
  peak_labels : List (List ℕ)
  temperatures : List ℚ
  intensity_data : List (List (ℚ × ℝ × String × ℕ))
  contributions : List (List ℝ)

/-- SpectrumSimulator.simulate: empty results when there is no NIST data or no
valid energy level, otherwise one spectrum, peak list, label list and
contribution array per configured temperature. -/
noncomputable def simulate (res : ℕ) (grid : List ℚ) (sigma : ℚ) (temps : List ℚ)
    (rows : List NistRow) (pct : ℝ) (label : String) : SimResult :=
  if rows.isEmpty then ⟨grid, [], [], [], [], [], []⟩
  else
    let levels := build_levels rows
    if levels.isEmpty then ⟨grid, [], [], [], [], [], []⟩
    else
      let passes := temps.map (fun T =>
        temp_pass res grid sigma pct label rows T (partition_function levels T))
      ⟨grid, passes.map TempAcc.intens, passes.map TempAcc.peakIdx,
        passes.map TempAcc.peakLab, temps, passes.map TempAcc.recs,
        passes.map TempAcc.contrib⟩

/-- The kernel length in MixedSpectrumSimulator._convolve_spectrum:
int(6 * sigma_points) | 1, the truncation of 6 times the sigma expressed in
grid bins with the lowest bit forced on. -/
def kernel_size (sigma_points : ℚ) : ℕ := (Int.toNat ⌊6 * sigma_points⌋).lor 1

/-- scipy.signal.windows.gaussian M std: exp(-((n - (M-1)/2) / std)^2 / 2) at
the integer taps n = 0 .. M-1. -/
noncomputable def gaussian_window (M : ℕ) (std : ℚ) : List ℝ :=
  (List.range M).map (fun n : ℕ =>
    Real.exp (-(1 / 2) * (((n : ℝ) - ((M : ℝ) - 1) / 2) / (std : ℝ)) ^ 2))

/-- The normalized instrument kernel: the Gaussian window divided by its sum. -/
noncomputable def conv_kernel (M : ℕ) (std : ℚ) : List ℝ :=
  (gaussian_window M std).map (fun x => x / (gaussian_window M std).sum)

/-- torch.nn.functional.conv1d with padding = len(kernel) / 2: zeros are
placed on both sides of the signal and the kernel is cross-correlated with the
padded signal. -/
noncomputable def conv1d_zero_pad (kernel s : List ℝ) : List ℝ :=
  let pad := kernel.length / 2
  let padded := List.replicate pad (0 : ℝ) ++ s ++ List.replicate pad (0 : ℝ)
  (List.range (s.length + 2 * pad + 1 - kernel.length)).map (fun i =>
    ((List.range kernel.length).map (fun j => kernel.getD j 0 * padded.getD (i + j) 0)).sum)

/-- Modelled from the spec: the same cross-correlation but with edge padding,
the boundary values of the signal replicated into the pad, as the spec words
"edge-padded" describe.  Kept for comparison with conv1d_zero_pad, which is
what the source calls. -/
noncomputable def conv1d_edge_pad (kernel s : List ℝ) : List ℝ :=
  let pad := kernel.length / 2
  let padded := List.replicate pad (s.headD 0) ++ s ++ List.replicate pad (s.getLast?.getD 0)
  (List.range (s.length + 2 * pad + 1 - kernel.length)).map (fun i =>
    ((List.range kernel.length).map (fun j => kernel.getD j 0 * padded.getD (i + j) 0)).sum)

/-- MixedSpectrumSimulator._convolve_spectrum: derive sigma in grid bins from
the wavelength step, build the normalized Gaussian kernel of odd length and
convolve with zero padding. -/
noncomputable def convolve_spectrum (wl : List ℚ) (s : List ℝ) (sigma_nm : ℚ) : List ℝ :=
  let step := (wl.getLastD 0 - wl.headD 0) / ((wl.length : ℚ) - 1)
  let sp := sigma_nm / step
  conv1d_zero_pad (conv_kernel (kernel_size sp) sp) s

/-- Modelled from the spec words for comparison: _convolve_spectrum with the
edge padding the spec claims. -/
noncomputable def convolve_spectrum_edge (wl : List ℚ) (s : List ℝ) (sigma_nm : ℚ) : List ℝ :=
  let step := (wl.getLastD 0 - wl.headD 0) / ((wl.length : ℚ) - 1)
  let sp := sigma_nm / step
  conv1d_edge_pad (conv_kernel (kernel_size sp) sp) s

/-- MixedSpectrumSimulator._saha_ratio: the Saha ionization ratio with unit
partition weights, including the source's unit-conversion constants. -/
noncomputable def sahaRatio (ion_energy T electron_density : ℚ) : ℝ :=
  let two_pi_me_kT_h2 :=
    ((2 * Real.pi * (m_e : ℝ) * ((k_B : ℝ) * (T : ℝ) * 1.60217662e-16) /
      ((planck_h : ℝ) * 1.60217662e-19) ^ 2) ^ ((3 : ℝ) / 2)) / 1e6
  (2 * 1 / 1) * two_pi_me_kT_h2 / (electron_density : ℝ) *
    Real.exp (-(ion_energy : ℝ) / ((k_B : ℝ) * (T : ℝ)))

/-- One drawn base element inside MixedSpectrumSimulator.generate_sample: its
name, the ionization energy looked up for it (0 when missing) and the total
atomic percentage drawn uniformly from (5, 20) for its neutral/ion pair. -/
structure ElemDraw where
  name : String
  ionE : ℚ
  total : ℚ

/-- The two dict entries one drawn element adds inside generate_sample: none
when its ionization energy is missing (the loop skips it with a warning),
otherwise a neutral and an ion entry, the drawn total split by the Saha ratio
into 1/(1+S) and S/(1+S) shares and stored divided by 100. -/
noncomputable def ep_entries (T nE : ℚ) (d : ElemDraw) : List (String × ℝ) :=
  if d.ionE = 0 then []
  else
    let S := sahaRatio d.ionE T nE
    [(d.name ++ "_1", (d.total : ℝ) * (1 / (1 + S)) / 100),
     (d.name ++ "_2", (d.total : ℝ) * (S / (1 + S)) / 100)]

/-- The composition loop of generate_sample: the per-element entries collected
over all draws (dict insertion order; the draws carry distinct element names
because the source selects base elements without replacement). -/
noncomputable def elem_percentages (T nE : ℚ) (draws : List ElemDraw) : List (String × ℝ) :=
  draws.foldl (fun acc d => acc ++ ep_entries T nE d) []

/-- total_target_percentage in generate_sample: the sum of the drawn totals of
the elements that were not skipped. -/
def total_target (draws : List ElemDraw) : ℚ :=
  ((draws.filter (fun d => decide ¬(d.ionE = 0))).map ElemDraw.total).sum

/-- The composition reported by a successful generate_sample, excluding the
temperature, electron_density and delta_E_max bookkeeping keys: None when the
total target percentage is zero, otherwise every stored fraction rescaled by
100 / total and finally multiplied by 100 for reporting. -/
noncomputable def composition (T nE : ℚ) (draws : List ElemDraw) : Option (List (String × ℝ)) :=
  if total_target draws = 0 then none
  else some (((elem_percentages T nE draws).map
      (fun p => (p.1, p.2 * (100 / ((total_target draws : ℚ) : ℝ))))).map
      (fun p => (p.1, p.2 * 100)))

/-- DatasetGenerator._calculate_lte_electron_density: the LTE density floor
1.6e12 * T^0.5 * delta_E^3. -/
noncomputable def calculate_lte_electron_density (T dE : ℚ) : ℝ :=
  1.6e12 * (T : ℝ) ^ ((0.5 : ℝ)) * (dE : ℝ) ^ 3

/-- The per-temperature quota of DatasetGenerator._generate_sample_params:
num_samples // num_temperatures plus one for the first num_samples mod
num_temperatures temperatures. -/
def quota (N m i : ℕ) : ℕ := N / m + if i < N % m then 1 else 0

/-- The delta_E_max value of _generate_sample_params: the largest positive
entry among the per-species maxima, with the 4.0 fallback when none is
positive. -/
def dE_fallback (dEs : List ℚ) : ℚ :=
  let dEpos := dEs.filter (fun v => decide (0 < v))
  if dEpos.isEmpty then 4 else dEpos.foldl max 0

/-- The electron densities at least the LTE floor for a temperature, falling
back to the full candidate range when none qualifies. -/
noncomputable def valid_densities (densities dEs : List ℚ) (T : ℚ) : List ℚ :=
  let valid := densities.filter
    (fun ne : ℚ => decide (calculate_lte_electron_density T (dE_fallback dEs) ≤ (ne : ℝ)))
  if valid.isEmpty then densities else valid

/-- max_ne_per_temp of _generate_sample_params: at most 5 distinct densities
from the qualifying pool, with the fallback to the full range size when the
pool is empty. -/
noncomputable def pool_size (densities dEs : List ℚ) (T : ℚ) : ℕ :=
  let maxNe := min (valid_densities densities dEs T).length 5
  if maxNe = 0 then densities.length else maxNe

/-- selected_n_e of _generate_sample_params: a draw of distinct densities from
the qualifying pool (oracle choose stands for np.random.choice without
replacement), extended by redraws with replacement (oracle chooseRep) when the
per-temperature quota exceeds the draw. -/
noncomputable def selected_densities (densities dEs : List ℚ)
    (choose chooseRep : List ℚ → ℕ → List ℚ) (T : ℚ) (n_i : ℕ) : List ℚ :=
  let sel := choose (valid_densities densities dEs T) (pool_size densities dEs T)
  if sel.length < n_i then sel ++ chooseRep sel (n_i - sel.length) else sel

/-- The per-temperature parameter list of _generate_sample_params: the first
quota-many selected densities, paired with the temperature. -/
noncomputable def per_temp_params (N m : ℕ) (densities dEs : List ℚ)
    (choose chooseRep : List ℚ → ℕ → List ℚ) (i : ℕ) (T : ℚ) : List (ℚ × ℚ) :=
  ((selected_densities densities dEs choose chooseRep T (quota N m i)).take
    (quota N m i)).map (fun ne => (T, ne))

/-- The enumerate loop of _generate_sample_params: one per-temperature list
for each configured temperature, indexed from i. -/
noncomputable def per_temp_lists (N m : ℕ) (densities dEs : List ℚ)
    (choose chooseRep : List ℚ → ℕ → List ℚ) : ℕ → List ℚ → List (List (ℚ × ℚ))
  | _, [] => []
  | i, T :: rest =>
      per_temp_params N m densities dEs choose chooseRep i T ::
        per_temp_lists N m densities dEs choose chooseRep (i + 1) rest

/-- Helper for the round-robin interleave: the total number of entries. -/
def totalLen {α : Type} (ls : List (List α)) : ℕ := (ls.map List.length).sum

/-- Fuel-bounded body of the interleaving while loop of
_generate_sample_params: each round takes the next entry of every list that
still has one, until all lists are exhausted. -/
def round_robin_fuel {α : Type} : ℕ → List (List α) → List α
  | 0, _ => []
  | fuel + 1, ls =>
      if ls.all List.isEmpty then []
      else ls.filterMap List.head? ++ round_robin_fuel fuel (ls.map List.tail)

/-- The while loop interleaving the per-temperature lists of
_generate_sample_params.  The loop removes at least one entry per round while
any remains, so the total number of entries bounds the number of rounds. -/
def round_robin {α : Type} (ls : List (List α)) : List α :=
  round_robin_fuel (totalLen ls) ls

/-- The trailing pad loop of _generate_sample_params: while the list is short
of the target, append a random existing entry (the random index is supplied as
the oracle padIdx). -/
def pad_params (N : ℕ) (padIdx : ℕ → ℕ) : ℕ → List (ℚ × ℚ) → List (ℚ × ℚ)
  | 0, l => l
  | fuel + 1, l =>
      if l.length < N then
        pad_params N padIdx fuel (l ++ [l.getD (padIdx l.length) (0, 0)])
      else l

/-- The final length fixup of _generate_sample_params: pad by duplication when
short of the target and truncate when over (taking the first N entries is the
identity when exactly N were produced). -/
def adjust_count (N : ℕ) (padIdx : ℕ → ℕ) (l : List (ℚ × ℚ)) : List (ℚ × ℚ) :=
  if l.length < N then pad_params N padIdx (N - l.length) l else l.take N

/-- DatasetGenerator._generate_sample_params assembled from its pieces. -/
noncomputable def generate_sample_params (N : ℕ) (temps densities dEs : List ℚ)
    (choose chooseRep : List ℚ → ℕ → List ℚ) (padIdx : ℕ → ℕ) : List (ℚ × ℚ) :=
  adjust_count N padIdx
    (round_robin (per_temp_lists N temps.length densities dEs choose chooseRep 0 temps))

/-- State of the dataset driver loop in DatasetGenerator.generate_dataset:
the in-memory set of used combination hashes, the accepted samples (scheduled
temperature and density with the generated composition) and the persisted
combination log. -/
structure DriverState (C H : Type) where
  used : List H
  accepted : List (ℚ × ℚ × C)
  log : List H

/-- The bounded retry loop for one scheduled (T, n_e) slot of
generate_dataset.  gen is the generate_sample oracle per attempt (None models
a failed generation), saveOk tells whether the combination-log write of that
attempt succeeds (an exception there is caught and only logged).  A candidate
whose hash is already used is rejected and retried; an accepted sample is
appended, its record saved when the write succeeds, and its hash added to the
used set, ending the slot. -/
def slot_attempts {C H : Type} [DecidableEq H] (hashC : ℚ → ℚ → C → H) (T nE : ℚ)
    (gen : ℕ → Option C) (saveOk : ℕ → Bool) :
    ℕ → ℕ → DriverState C H → DriverState C H
  | 0, _, st => st
  | fuel + 1, att, st =>
      match gen att with
      | none => slot_attempts hashC T nE gen saveOk fuel (att + 1) st
      | some c =>
          let h := hashC T nE c
          if h ∈ st.used then slot_attempts hashC T nE gen saveOk fuel (att + 1) st
          else
            ⟨st.used ++ [h], st.accepted ++ [(T, nE, c)],
              if saveOk att then st.log ++ [h] else st.log⟩

/-- The dataset driver: fold the scheduled slots (each with its generation and
save oracles) through the 5-attempt retry loop. -/
def run_driver {C H : Type} [DecidableEq H] (hashC : ℚ → ℚ → C → H)
    (slots : List (ℚ × ℚ × (ℕ → Option C) × (ℕ → Bool))) (st : DriverState C H) :
    DriverState C H :=
  slots.foldl (fun st sl => slot_attempts hashC sl.1 sl.2.1 sl.2.2.1 sl.2.2.2 5 0 st) st

/-- The combination hashes of the accepted samples of a driver state, as
_hash_combination recomputes them from the slot conditions and composition. -/
def acceptedHashes {C H : Type} (hashC : ℚ → ℚ → C → H) (st : DriverState C H) : List H :=
  st.accepted.map (fun s => hashC s.1 s.2.1 s.2.2)

/-- One split group of the persisted dataset file. -/
structure SplitData where
  spectra : List (List ℚ)
  labels : List (List ℤ)
  comps : List String
deriving DecidableEq

/-- The persisted dataset file: the optional shared wavelength grid, the three
split groups and the refreshed attributes. -/
structure H5File where
  wavelengths : Option (List ℚ)
  train : SplitData
  validation : SplitData
  test : SplitData
  total_samples : ℕ
  config_snapshot : String
deriving DecidableEq

/-- The files touched by the persistence phase: the dataset file and the
backups made before overwriting. -/
structure World where
  dataset : Option H5File
  backups : List H5File
deriving DecidableEq

/-- Concatenate existing split data with the new split data, as the merge loop
of generate_dataset does per split. -/
def merge_split (old new : SplitData) : SplitData :=
  ⟨old.spectra ++ new.spectra, old.labels ++ new.labels, old.comps ++ new.comps⟩

/-- The empty split, the default when a group is absent from the file. -/
def empty_split : SplitData := ⟨[], [], []⟩

/-- The persistence phase of generate_dataset: when a dataset file exists it
is first copied to a backup; then its stored wavelength grid, when present, is
compared with the current grid and a mismatch raises before anything is
written; otherwise the existing splits are loaded, concatenated with the new
splits and the file is rewritten with the current grid, the combined splits
and refreshed attributes.  The first component is the raised error, if any. -/
def persist_dataset (w : World) (wl : List ℚ) (tr va te : SplitData)
    (cfg : String) : Option String × World :=
  match w.dataset with
  | none =>
      (none, ⟨some ⟨some wl, tr, va, te,
        tr.spectra.length + va.spectra.length + te.spectra.length, cfg⟩, w.backups⟩)
  | some f =>
      let backups := f :: w.backups
      let write : H5File :=
        ⟨some wl, merge_split f.train tr, merge_split f.validation va,
          merge_split f.test te,
          (merge_split f.train tr).spectra.length +
            (merge_split f.validation va).spectra.length +
            (merge_split f.test te).spectra.length, cfg⟩
      match f.wavelengths with
      | some oldwl =>
          if oldwl = wl then (none, ⟨some write, backups⟩)
          else (some "Wavelengths tidak cocok", ⟨w.dataset, backups⟩)
      | none => (none, ⟨some write, backups⟩)

/-- C7: for every temperature T greater than 0 and every non-empty energy-level
set with positive degeneracies, the partition function is strictly positive;
whenever the Boltzmann sum evaluates to zero the partition function is taken as
1.0; and the partition function is never zero, so the division by Z in the
per-line intensity computation never divides by zero. -/
theorem partition_function_props (levels : List (ℚ × ℚ)) (T : ℚ)
    (hT : 0 < T) (hne : levels ≠ []) (hg : ∀ p ∈ levels, 0 < p.2) :
    0 < partition_function levels T ∧
    (∀ (lv : List (ℚ × ℚ)) (t : ℚ), boltzmann_sum lv t = 0 → partition_function lv t = 1) ∧
    (∀ (lv : List (ℚ × ℚ)) (t : ℚ), partition_function lv t ≠ 0) := by
  have hpos : 0 < boltzmann_sum levels T := by
    apply List.sum_pos
    · intro a ha
      simp only [List.mem_map] at ha
      obtain ⟨p, hp, rfl⟩ := ha
      have hp2 : (0 : ℝ) < (p.2 : ℝ) := by exact_mod_cast hg p hp
      exact mul_pos hp2 (Real.exp_pos _)
    · simpa using hne
  refine ⟨?_, ?_, ?_⟩
  · unfold partition_function
    split
    · exact one_pos
    · exact hpos
  · intro lv t h
    simp [partition_function, h]
  · intro lv t
    unfold partition_function
    split
    · exact one_ne_zero
    · assumption

/-- Witness: the claim instantiated at the single level (1 eV, degeneracy 2)
and T = 10000 K. -/
theorem partition_function_props_witness :
    0 < partition_function [(1, 2)] 10000 :=
  (partition_function_props [(1, 2)] 10000 (by norm_num) (by simp)
    (by intro p hp; simp at hp; simp [hp])).1

/-- maxAbs is never negative. -/
theorem maxAbs_nonneg (l : List ℝ) : 0 ≤ maxAbs l := by
  induction l with
  | nil => simp [maxAbs]
  | cons x xs ih =>
      simp only [maxAbs, List.map_cons, List.foldr_cons] at *
      exact le_max_of_le_right ih

/-- Scaling every entry by a nonnegative factor scales maxAbs by it. -/
theorem maxAbs_map_mul (l : List ℝ) (c : ℝ) (hc : 0 ≤ c) :
    maxAbs (l.map (fun x => x * c)) = maxAbs l * c := by
  induction l with
  | nil => simp [maxAbs]
  | cons x xs ih =>
      simp only [maxAbs, List.map_cons, List.foldr_cons] at *
      rw [abs_mul, abs_of_nonneg hc, ih, max_mul_of_nonneg _ _ hc]

/-- C4: whenever the input spectrum's maximum absolute value is nonzero,
_normalize_intensity returns a spectrum whose maximum absolute value equals
the (nonnegative) target peak intensity; when the maximum absolute value is
zero, the input is returned unchanged. -/
theorem normalize_intensity_peak (l : List ℝ) (target : ℚ)
    (h : maxAbs l ≠ 0) (ht : 0 ≤ (target : ℝ)) :
    maxAbs (normalize_intensity l target) = (target : ℝ) ∧
    ∀ l2 : List ℝ, maxAbs l2 = 0 → normalize_intensity l2 target = l2 := by
  constructor
  · have hM : 0 < maxAbs l := lt_of_le_of_ne (maxAbs_nonneg l) (Ne.symm h)
    unfold normalize_intensity
    rw [if_neg h]
    have hfun : (fun x : ℝ => x / maxAbs l * (target : ℝ)) =
        fun x : ℝ => x * ((target : ℝ) / maxAbs l) := by
      funext x
      ring
    rw [hfun, maxAbs_map_mul l _ (div_nonneg ht hM.le)]
    field_simp
  · intro l2 h2
    simp [normalize_intensity, h2]

/-- Witness: the peak property evaluated on the spectrum with entries 1 and -3
and the configured target 0.8. -/
theorem normalize_intensity_peak_witness :
    maxAbs (normalize_intensity [1, -3] (4 / 5)) = ((4 / 5 : ℚ) : ℝ) :=
  (normalize_intensity_peak [1, -3] (4 / 5)
    (by
      have : maxAbs [(1 : ℝ), -3] = 3 := by
        simp [maxAbs]
      rw [this]
      norm_num)
    (by norm_num)).1

/-- C9: for a species with no transition data, or whose rows yield no valid
energy level, simulate returns the wavelength grid together with empty
spectra, peak-index, label, temperature, line-record and contribution
collections, for every configured temperature list, and never fails. -/
theorem simulate_empty_data (res : ℕ) (grid : List ℚ) (sigma : ℚ)
    (temps : List ℚ) (rows : List NistRow) (pct : ℝ) (label : String)
    (h : rows = [] ∨ build_levels rows = []) :
    simulate res grid sigma temps rows pct label = ⟨grid, [], [], [], [], [], []⟩ := by
  rcases h with rfl | hlv
  · simp [simulate]
  · unfold simulate
    split
    · rfl
    · simp [hlv]

/-- Witness: simulate on the empty NIST row list over the configured grid. -/
theorem simulate_empty_data_witness :
    simulate 4096 (linspace 200 900 4096) (1 / 10) [6000, 8000] [] 1 "Si_1" =
      ⟨linspace 200 900 4096, [], [], [], [], [], []⟩ :=
  simulate_empty_data 4096 (linspace 200 900 4096) (1 / 10) [6000, 8000] [] 1 "Si_1"
    (Or.inl rfl)

/-- C2: appending to an existing dataset file whose stored wavelength grid
differs from the current grid raises before any write: the call reports the
mismatch error and the dataset file is left exactly as it was, so no split
data, wavelength array or attribute of it is modified. -/
theorem grid_mismatch_aborts (w : World) (wl : List ℚ) (tr va te : SplitData)
    (cfg : String) (f : H5File) (oldwl : List ℚ)
    (hf : w.dataset = some f) (hw : f.wavelengths = some oldwl) (hne : oldwl ≠ wl) :
    (persist_dataset w wl tr va te cfg).1 = some "Wavelengths tidak cocok" ∧
    (persist_dataset w wl tr va te cfg).2.dataset = w.dataset := by
  simp [persist_dataset, hf, hw, hne]

/-- Witness: a stored grid of [1] against a current grid of [2]. -/
theorem grid_mismatch_aborts_witness :
    (persist_dataset ⟨some ⟨some [1], empty_split, empty_split, empty_split, 0, ""⟩, []⟩
        [2] empty_split empty_split empty_split "cfg").2.dataset =
      (⟨some ⟨some [1], empty_split, empty_split, empty_split, 0, ""⟩, []⟩ : World).dataset :=
  (grid_mismatch_aborts ⟨some ⟨some [1], empty_split, empty_split, empty_split, 0, ""⟩, []⟩
    [2] empty_split empty_split empty_split "cfg" _ [1] rfl rfl (by decide)).2

/-- C10: a combination-log write failure during an accepted attempt is caught
and does not abort the slot or the acceptance: the sample is still appended to
the in-memory dataset lists, its hash is still added to the in-memory dedup
set, and the combination log is left unchanged, so the sample is kept while
being absent from the log. -/
theorem save_failure_keeps_sample {C H : Type} [DecidableEq H]
    (hashC : ℚ → ℚ → C → H) (T nE : ℚ) (gen : ℕ → Option C) (saveOk : ℕ → Bool)
    (fuel att : ℕ) (st : DriverState C H) (c : C)
    (hgen : gen att = some c) (hnew : hashC T nE c ∉ st.used)
    (hsave : saveOk att = false) :
    (T, nE, c) ∈ (slot_attempts hashC T nE gen saveOk (fuel + 1) att st).accepted ∧
    hashC T nE c ∈ (slot_attempts hashC T nE gen saveOk (fuel + 1) att st).used ∧
    (slot_attempts hashC T nE gen saveOk (fuel + 1) att st).log = st.log := by
  simp [slot_attempts, hgen, hnew, hsave]

/-- Witness: a failed save on the first attempt of a fresh slot, with natural
numbers standing for compositions and hashes. -/
theorem save_failure_keeps_sample_witness :
    ((1 : ℚ), (2 : ℚ), 7) ∈
      (slot_attempts (fun _ _ c => c) 1 2 (fun _ => some 7) (fun _ => false) 1 0
        (⟨[], [], []⟩ : DriverState ℕ ℕ)).accepted :=
  (save_failure_keeps_sample (fun _ _ c => c) 1 2 (fun _ => some 7) (fun _ => false) 0 0
    ⟨[], [], []⟩ 7 rfl (by simp) rfl).1

/-- The retry loop preserves the dedup invariant: accepted hashes are distinct,
every accepted hash is in the used set and outside the loaded set U0, and U0
stays inside the used set. -/
theorem slot_attempts_inv {C H : Type} [DecidableEq H] (hashC : ℚ → ℚ → C → H)
    (U0 : List H) (T nE : ℚ) (gen : ℕ → Option C) (saveOk : ℕ → Bool) :
    ∀ (fuel att : ℕ) (st : DriverState C H),
      (acceptedHashes hashC st).Nodup ∧
        (∀ h ∈ acceptedHashes hashC st, h ∈ st.used ∧ h ∉ U0) ∧
        (∀ h ∈ U0, h ∈ st.used) →
      (acceptedHashes hashC (slot_attempts hashC T nE gen saveOk fuel att st)).Nodup ∧
        (∀ h ∈ acceptedHashes hashC (slot_attempts hashC T nE gen saveOk fuel att st),
          h ∈ (slot_attempts hashC T nE gen saveOk fuel att st).used ∧ h ∉ U0) ∧
        (∀ h ∈ U0, h ∈ (slot_attempts hashC T nE gen saveOk fuel att st).used) := by
  intro fuel
  induction fuel with
  | zero =>
      intro att st h
      simpa [slot_attempts] using h
  | succ n ih =>
      intro att st hinv
      cases hgen : gen att with
      | none =>
          simpa only [slot_attempts, hgen] using ih (att + 1) st hinv
      | some c =>
          by_cases hmem : hashC T nE c ∈ st.used
          · simpa only [slot_attempts, hgen, hmem, if_pos] using ih (att + 1) st hinv
          · obtain ⟨h1, h2, h3⟩ := hinv
            simp only [slot_attempts, hgen, hmem, if_neg, not_false_iff, ite_false]
            refine ⟨?_, ?_, ?_⟩
            · simp only [acceptedHashes, List.map_append, List.map_cons, List.map_nil]
              refine List.Nodup.append h1 (List.nodup_singleton _) ?_
              intro a ha hb
              simp only [List.mem_singleton] at hb
              subst hb
              exact hmem (h2 _ ha).1
            · intro h0 hh0
              simp only [acceptedHashes, List.map_append, List.map_cons, List.map_nil,
                List.mem_append, List.mem_singleton] at hh0
              rcases hh0 with hh0 | rfl
              · exact ⟨List.mem_append_left _ (h2 h0 hh0).1, (h2 h0 hh0).2⟩
              · exact ⟨List.mem_append_right _ (List.mem_singleton_self _), fun hU => hmem (h3 _ hU)⟩
            · intro h0 hh0
              exact List.mem_append_left _ (h3 h0 hh0)

/-- The whole driver fold preserves the dedup invariant. -/
theorem run_driver_inv {C H : Type} [DecidableEq H] (hashC : ℚ → ℚ → C → H)
    (U0 : List H) :
    ∀ (slots : List (ℚ × ℚ × (ℕ → Option C) × (ℕ → Bool))) (st : DriverState C H),
      (acceptedHashes hashC st).Nodup ∧
        (∀ h ∈ acceptedHashes hashC st, h ∈ st.used ∧ h ∉ U0) ∧
        (∀ h ∈ U0, h ∈ st.used) →
      (acceptedHashes hashC (run_driver hashC slots st)).Nodup ∧
        (∀ h ∈ acceptedHashes hashC (run_driver hashC slots st),
          h ∈ (run_driver hashC slots st).used ∧ h ∉ U0) ∧
        (∀ h ∈ U0, h ∈ (run_driver hashC slots st).used) := by
  intro slots
  induction slots with
  | nil =>
      intro st h
      simpa [run_driver] using h
  | cons sl rest ih =>
      intro st hinv
      simp only [run_driver, List.foldl_cons]
      exact ih _ (slot_attempts_inv hashC U0 sl.1 sl.2.1 sl.2.2.1 sl.2.2.2 5 0 st hinv)

/-- C1: over any run of the dataset driver started from the loaded combination
set U0, no two accepted samples share a combination hash, every accepted hash
is recorded in the used set and lies outside U0; moreover a candidate whose
hash is already in the current set is rejected without being appended (the
loop simply retries), and an accepted candidate's hash is added to the set in
the very step that accepts it, before any further candidate is considered. -/
theorem dedup_invariant {C H : Type} [DecidableEq H] (hashC : ℚ → ℚ → C → H)
    (slots : List (ℚ × ℚ × (ℕ → Option C) × (ℕ → Bool))) (U0 log0 : List H) :
    (acceptedHashes hashC (run_driver hashC slots ⟨U0, [], log0⟩)).Nodup ∧
    (∀ h ∈ acceptedHashes hashC (run_driver hashC slots ⟨U0, [], log0⟩),
      h ∈ (run_driver hashC slots ⟨U0, [], log0⟩).used ∧ h ∉ U0) ∧
    (∀ (T nE : ℚ) (gen : ℕ → Option C) (saveOk : ℕ → Bool) (fuel att : ℕ)
      (st : DriverState C H) (c : C), gen att = some c → hashC T nE c ∈ st.used →
      slot_attempts hashC T nE gen saveOk (fuel + 1) att st =
        slot_attempts hashC T nE gen saveOk fuel (att + 1) st) ∧
    (∀ (T nE : ℚ) (gen : ℕ → Option C) (saveOk : ℕ → Bool) (fuel att : ℕ)
      (st : DriverState C H) (c : C), gen att = some c → hashC T nE c ∉ st.used →
      slot_attempts hashC T nE gen saveOk (fuel + 1) att st =
        ⟨st.used ++ [hashC T nE c], st.accepted ++ [(T, nE, c)],
          if saveOk att then st.log ++ [hashC T nE c] else st.log⟩) := by
  have base : (acceptedHashes hashC (⟨U0, [], log0⟩ : DriverState C H)).Nodup ∧
      (∀ h ∈ acceptedHashes hashC (⟨U0, [], log0⟩ : DriverState C H),
        h ∈ (⟨U0, [], log0⟩ : DriverState C H).used ∧ h ∉ U0) ∧
      (∀ h ∈ U0, h ∈ (⟨U0, [], log0⟩ : DriverState C H).used) := by
    refine ⟨by simp [acceptedHashes], by simp [acceptedHashes], fun h hh => hh⟩
  obtain ⟨g1, g2, g3⟩ := run_driver_inv hashC U0 slots ⟨U0, [], log0⟩ base
  refine ⟨g1, g2, ?_, ?_⟩
  · intro T nE gen saveOk fuel att st c hgen hmem
    simp [slot_attempts, hgen, hmem]
  · intro T nE gen saveOk fuel att st c hgen hmem
    simp [slot_attempts, hgen, hmem]

/-- Witness: the dedup invariant on one concrete slot whose first candidate is
accepted, starting from a loaded set containing the hash 9. -/
theorem dedup_invariant_witness :
    (acceptedHashes (fun _ _ c => c)
      (run_driver (C := ℕ) (H := ℕ) (fun _ _ c => c)
        [(1, 2, fun _ => some 5, fun _ => true)] ⟨[9], [], []⟩)).Nodup :=
  (dedup_invariant (fun _ _ c => c) [(1, 2, fun _ => some 5, fun _ => true)] [9] []).1

/-- The Saha ratio is strictly positive for positive temperature and electron
density. -/
theorem sahaRatio_pos (ionE T nE : ℚ) (hT : 0 < T) (hnE : 0 < nE) :
    0 < sahaRatio ionE T nE := by
  have hkB : (0 : ℝ) < (k_B : ℝ) := by
    have h0 : (0 : ℚ) < k_B := by norm_num [k_B]
    exact_mod_cast h0
  have hme : (0 : ℝ) < (m_e : ℝ) := by
    have h0 : (0 : ℚ) < m_e := by norm_num [m_e]
    exact_mod_cast h0
  have hh : (0 : ℝ) < (planck_h : ℝ) := by
    have h0 : (0 : ℚ) < planck_h := by norm_num [planck_h]
    exact_mod_cast h0
  have hT2 : (0 : ℝ) < (T : ℝ) := by exact_mod_cast hT
  have hnE2 : (0 : ℝ) < (nE : ℝ) := by exact_mod_cast hnE
  unfold sahaRatio
  have hbase : (0 : ℝ) <
      2 * Real.pi * (m_e : ℝ) * ((k_B : ℝ) * (T : ℝ) * 1.60217662e-16) /
        ((planck_h : ℝ) * 1.60217662e-19) ^ 2 := by
    apply div_pos
    · exact mul_pos (mul_pos (mul_pos two_pos Real.pi_pos) hme)
        (mul_pos (mul_pos hkB hT2) (by norm_num))
    · exact pow_pos (mul_pos hh (by norm_num)) 2
  have htp : (0 : ℝ) <
      (2 * Real.pi * (m_e : ℝ) * ((k_B : ℝ) * (T : ℝ) * 1.60217662e-16) /
        ((planck_h : ℝ) * 1.60217662e-19) ^ 2) ^ ((3 : ℝ) / 2) / 1e6 :=
    div_pos (Real.rpow_pos_of_pos hbase _) (by norm_num)
  exact mul_pos (div_pos (mul_pos (by norm_num) htp) hnE2) (Real.exp_pos _)

/-- Folding list append from any accumulator flattens the mapped pieces. -/
theorem foldl_append_flatten {α β : Type} (g : β → List α) :
    ∀ (l : List β) (acc : List α),
      l.foldl (fun a d => a ++ g d) acc = acc ++ (l.map g).flatten := by
  intro l
  induction l with
  | nil => intro acc; simp
  | cons d rest ih => intro acc; simp [ih, List.append_assoc]

/-- The values one draw contributes sum to its drawn total over 100, or to 0
when the draw is skipped for a missing ionization energy. -/
theorem ep_entries_sum (T nE : ℚ) (d : ElemDraw) (hT : 0 < T) (hnE : 0 < nE) :
    ((ep_entries T nE d).map Prod.snd).sum =
      if d.ionE = 0 then 0 else (d.total : ℝ) / 100 := by
  unfold ep_entries
  split
  · simp
  · have hS : 0 < sahaRatio d.ionE T nE := sahaRatio_pos _ _ _ hT hnE
    have h1S : (1 : ℝ) + sahaRatio d.ionE T nE ≠ 0 := by linarith
    simp only [List.map_cons, List.map_nil, List.sum_cons, List.sum_nil]
    field_simp
    ring

/-- The per-draw sums over a whole draw list add up to the total target
percentage divided by 100. -/
theorem ep_entries_total (T nE : ℚ) (hT : 0 < T) (hnE : 0 < nE) :
    ∀ draws : List ElemDraw,
      ((draws.map (fun d => ((ep_entries T nE d).map Prod.snd).sum)).sum) =
        ((total_target draws : ℚ) : ℝ) / 100 := by
  intro draws
  induction draws with
  | nil => simp [total_target]
  | cons d rest ih =>
      by_cases hd : d.ionE = 0
      · rw [List.map_cons, List.sum_cons, ih, ep_entries_sum T nE d hT hnE, if_pos hd]
        have heq : total_target (d :: rest) = total_target rest := by
          simp [total_target, List.filter_cons, hd]
        rw [heq, zero_add]
      · rw [List.map_cons, List.sum_cons, ih, ep_entries_sum T nE d hT hnE, if_neg hd]
        have heq : total_target (d :: rest) = d.total + total_target rest := by
          simp [total_target, List.filter_cons, hd]
        rw [heq]
        push_cast
        ring

/-- C3: for every successfully generated sample, the per-species percentages
reported in the composition mapping (the element keys, excluding the
temperature, electron_density and delta_E_max bookkeeping keys) sum to 100.0
within 1e-3; over the real model the sum is exactly 100.  The draws carry
distinct element names, as produced by selection without replacement, and a
successful sample requires a nonzero total target percentage. -/
theorem composition_sums_to_100 (T nE : ℚ) (draws : List ElemDraw)
    (hT : 0 < T) (hnE : 0 < nE) (htot : total_target draws ≠ 0)
    (hnames : (draws.map ElemDraw.name).Nodup) :
    ∃ L, composition T nE draws = some L ∧ |((L.map Prod.snd).sum) - 100| ≤ 1 / 1000 := by
  have hflat : elem_percentages T nE draws = ((draws.map (ep_entries T nE)).flatten) := by
    unfold elem_percentages
    rw [foldl_append_flatten]
    simp
  have hsum : ((elem_percentages T nE draws).map Prod.snd).sum =
      ((total_target draws : ℚ) : ℝ) / 100 := by
    rw [hflat, ← ep_entries_total T nE hT hnE draws]
    rw [List.map_flatten, List.map_map, List.sum_flatten, List.map_map]
    rfl
  have htot2 : ((total_target draws : ℚ) : ℝ) ≠ 0 := by exact_mod_cast htot
  have hmulsum : ∀ (l : List ℝ) (c : ℝ), (l.map (fun x => x * c)).sum = l.sum * c := by
    intro l c
    induction l with
    | nil => simp
    | cons x xs ih => simp [ih, add_mul]
  have hval : ((((elem_percentages T nE draws).map
      (fun p => (p.1, p.2 * (100 / ((total_target draws : ℚ) : ℝ))))).map
      (fun p => (p.1, p.2 * 100))).map Prod.snd).sum = 100 := by
    rw [List.map_map, List.map_map]
    have hfun : ((Prod.snd ∘ (fun p : String × ℝ => (p.1, p.2 * 100))) ∘
        (fun p : String × ℝ => (p.1, p.2 * (100 / ((total_target draws : ℚ) : ℝ))))) =
        fun p : String × ℝ => p.2 * (100 / ((total_target draws : ℚ) : ℝ) * 100) := by
      funext p
      simp only [Function.comp]
      ring
    have hmul : (elem_percentages T nE draws).map
        (fun p : String × ℝ => p.2 * (100 / ((total_target draws : ℚ) : ℝ) * 100)) =
        ((elem_percentages T nE draws).map Prod.snd).map
          (fun x => x * (100 / ((total_target draws : ℚ) : ℝ) * 100)) := by
      rw [List.map_map]
      rfl
    rw [hfun, hmul, hmulsum, hsum]
    field_simp
    ring
  refine ⟨((elem_percentages T nE draws).map
      (fun p => (p.1, p.2 * (100 / ((total_target draws : ℚ) : ℝ))))).map
      (fun p => (p.1, p.2 * 100)), ?_, ?_⟩
  · simp [composition, htot]
  · rw [hval]
    norm_num

/-- Witness: one kept draw (silicon, ionization energy 8.15 eV, drawn total
12 percent) at T = 10000 K and electron density 1e16. -/
theorem composition_sums_to_100_witness :
    ∃ L, composition 10000 1e16 [⟨"Si", 815 / 100, 12⟩] = some L ∧
      |((L.map Prod.snd).sum) - 100| ≤ 1 / 1000 :=
  composition_sums_to_100 10000 1e16 [⟨"Si", 815 / 100, 12⟩] (by norm_num) (by norm_num)
    (by norm_num [total_target]) (by simp)

/-- Dividing every entry by a constant divides the sum by it. -/
theorem sum_map_div_const (l : List ℝ) (c : ℝ) :
    (l.map (fun x => x / c)).sum = l.sum / c := by
  induction l with
  | nil => simp
  | cons x xs ih => simp [ih, add_div]

/-- The Gaussian window has the requested number of taps. -/
theorem gaussian_window_length (M : ℕ) (std : ℚ) :
    (gaussian_window M std).length = M := by
  rw [gaussian_window, List.length_map, List.length_range]

/-- The normalized kernel has the requested number of taps. -/
theorem conv_kernel_length (M : ℕ) (std : ℚ) :
    (conv_kernel M std).length = M := by
  rw [conv_kernel, List.length_map, gaussian_window_length]

/-- A nonempty Gaussian window has positive sum: every tap is an exponential. -/
theorem gaussian_window_sum_pos (M : ℕ) (std : ℚ) (hM : 0 < M) :
    0 < (gaussian_window M std).sum := by
  apply List.sum_pos
  · intro a ha
    simp only [gaussian_window, List.mem_map] at ha
    obtain ⟨n, _, rfl⟩ := ha
    exact Real.exp_pos _
  · apply List.ne_nil_of_length_pos
    rw [gaussian_window_length]
    exact hM

/-- Forcing the lowest bit on makes the kernel length odd. -/
theorem kernel_size_odd (sp : ℚ) : Odd (kernel_size sp) := by
  unfold kernel_size
  rw [Nat.odd_iff]
  show (Int.toNat ⌊6 * sp⌋ ||| 1) % 2 = 1
  have h := Nat.testBit_or (Int.toNat ⌊6 * sp⌋) 1 0
  simp only [Nat.testBit_zero] at h
  rcases Nat.mod_two_eq_zero_or_one (Int.toNat ⌊6 * sp⌋ ||| 1) with h2 | h2
  · rw [h2] at h
    simp at h
  · exact h2

/-- The kernel length is never zero. -/
theorem kernel_size_pos (sp : ℚ) : 0 < kernel_size sp := by
  rcases Nat.eq_zero_or_pos (kernel_size sp) with h0 | h0
  · have h := kernel_size_odd sp
    rw [h0, Nat.odd_iff] at h
    simp at h
  · exact h0

/-- The normalized kernel sums to one. -/
theorem conv_kernel_sum (M : ℕ) (std : ℚ) (hM : 0 < M) :
    (conv_kernel M std).sum = 1 := by
  unfold conv_kernel
  rw [sum_map_div_const]
  exact div_self (ne_of_gt (gaussian_window_sum_pos M std hM))

/-- With an odd kernel the zero-padded cross-correlation preserves length. -/
theorem conv1d_zero_pad_length (k s : List ℝ) (hk : Odd k.length) :
    (conv1d_zero_pad k s).length = s.length := by
  obtain ⟨t, ht⟩ := hk
  simp only [conv1d_zero_pad, List.length_map, List.length_range]
  omega

/-- C6 (amended): the instrument convolution uses a normalized Gaussian kernel
of length int(6 times the sigma expressed in grid bins) with the lowest bit
forced on (hence odd), applied with zero padding (implicit zeros at the signal
boundaries, as torch conv1d's padding argument supplies, not edge
replication), and returns a convolved spectrum of the same length as its
input. -/
theorem convolve_spectrum_props (wl : List ℚ) (s : List ℝ) (sigma_nm : ℚ) :
    (convolve_spectrum wl s sigma_nm).length = s.length ∧
    (∀ sp : ℚ, Odd (kernel_size sp)) ∧
    (∀ sp : ℚ, (conv_kernel (kernel_size sp) sp).length = kernel_size sp) ∧
    (∀ sp : ℚ, (conv_kernel (kernel_size sp) sp).sum = 1) := by
  refine ⟨?_, kernel_size_odd, fun sp => conv_kernel_length _ _,
    fun sp => conv_kernel_sum _ _ (kernel_size_pos sp)⟩
  unfold convolve_spectrum
  rw [conv1d_zero_pad_length]
  rw [conv_kernel_length]
  exact kernel_size_odd _

/-- C6 counterexample: on the three-point grid [0, 1, 2] with sigma 1/2 nm
(one half grid bin) and the spectrum [1, 0, 0], the convolution the source
computes (zero padding) differs from the edge-padded convolution the claim
describes, so the instrument convolution is not edge-padded. -/
theorem convolve_edge_padding_refuted :
    convolve_spectrum [0, 1, 2] [1, 0, 0] (1 / 2) ≠
      convolve_spectrum_edge [0, 1, 2] [1, 0, 0] (1 / 2) := by
  have hsp : (1 : ℚ) / 2 /
      ((List.getLastD [(0 : ℚ), 1, 2] 0 - List.headD [(0 : ℚ), 1, 2] 0) /
        ((([(0 : ℚ), 1, 2] : List ℚ).length : ℚ) - 1)) = 1 / 2 := by
    simp
    norm_num
  have hks : kernel_size (1 / 2) = 3 := by
    unfold kernel_size
    norm_num
    decide
  have hW : 0 < (gaussian_window 3 (1 / 2)).sum :=
    gaussian_window_sum_pos 3 _ (by norm_num)
  have hwin : gaussian_window 3 (1 / 2) = [Real.exp (-2), 1, Real.exp (-2)] := by
    rw [gaussian_window, show List.range 3 = [0, 1, 2] from rfl]
    simp only [List.map_cons, List.map_nil, List.cons.injEq, and_true]
    refine ⟨?_, ?_, ?_⟩
    · rw [Real.exp_eq_exp]
      push_cast
      norm_num
    · rw [Real.exp_eq_one_iff]
      push_cast
      norm_num
    · rw [Real.exp_eq_exp]
      push_cast
      norm_num
  have hk : conv_kernel 3 (1 / 2) =
      [Real.exp (-2) / (gaussian_window 3 (1 / 2)).sum,
       1 / (gaussian_window 3 (1 / 2)).sum,
       Real.exp (-2) / (gaussian_window 3 (1 / 2)).sum] := by
    rw [conv_kernel, hwin]
    rfl
  intro heq
  have h0 := congrArg (fun l : List ℝ => l.getD 0 0) heq
  simp only [convolve_spectrum, convolve_spectrum_edge] at h0
  rw [hsp, hks] at h0
  rw [hk] at h0
  simp only [conv1d_zero_pad, conv1d_edge_pad, List.length_cons, List.length_nil,
    List.headD_cons, List.range_succ, List.range_zero, List.nil_append, List.map_cons,
    List.map_nil, List.cons_append, List.sum_cons, List.sum_nil, List.getD] at h0
  norm_num at h0
  have hE : 0 < Real.exp (-2) / (gaussian_window 3 (1 / 2)).sum :=
    div_pos (Real.exp_pos _) hW
  linarith [h0]

/-- The four-point grid over [0, 3] used as the C5 failing input. -/
theorem linspace_four : linspace 0 3 4 = [0, 1, 2, 3] := by
  rw [linspace, show List.range 4 = [0, 1, 2, 3] from rfl]
  simp only [List.map_cons, List.map_nil, List.cons.injEq, and_true]
  refine ⟨by norm_num, by norm_num, by norm_num, by norm_num⟩

/-- The line at wavelength 3 is located at bin 3 of that grid. -/
theorem searchsorted_four : searchsorted (linspace 0 3 4) 3 = 3 := by
  rw [linspace_four]
  rfl

/-- The Gaussian profile of the line at wavelength 3 on that grid, written
with explicit exponentials. -/
theorem gaussian_profile_four : gaussian_profile (1 / 10) (linspace 0 3 4) 3 =
    [Real.exp (-450) / (1 / 10 * Real.sqrt (2 * Real.pi)),
     Real.exp (-200) / (1 / 10 * Real.sqrt (2 * Real.pi)),
     Real.exp (-50) / (1 / 10 * Real.sqrt (2 * Real.pi)),
     Real.exp 0 / (1 / 10 * Real.sqrt (2 * Real.pi))] := by
  rw [linspace_four, gaussian_profile]
  simp only [List.map_cons, List.map_nil, List.cons.injEq, and_true]
  refine ⟨?_, ?_, ?_, ?_⟩ <;>
  · congr 1
    · rw [Real.exp_eq_exp]
      push_cast
      norm_num
    · push_cast
      norm_num

/-- The partition function of the single level (0 eV, degeneracy 1). -/
theorem partition_function_single : partition_function [(0, 1)] 10000 = 1 := by
  have hb : boltzmann_sum [(0, 1)] 10000 = 1 := by
    simp [boltzmann_sum]
  rw [partition_function, hb]
  norm_num

/-- C5 (failing input): simulate with resolution 4, grid linspace(0,3,4) and a
single transition at wavelength 3 locates the line at bin 3, but accumulates
the Gaussian profile shifted right by one bin: the produced spectrum is
[0, p0, p1, p2] instead of the profile [p0, p1, p2, p3] itself, so bin 3
receives p2, which is strictly below the profile's value p3 at the line's own
bin (the peak value is dropped).  The profile is therefore not accumulated at
the grid bin located for the line's wavelength, contradicting the claim. -/
theorem line_accumulation_misplaced :
    (simulate 4 (linspace 0 3 4) (1 / 10) [10000]
        [⟨some 3, some 1, some 0, some 0, some 1, some 1⟩] 1 "X").spectra =
      [[0, (gaussian_profile (1 / 10) (linspace 0 3 4) 3).getD 0 0,
        (gaussian_profile (1 / 10) (linspace 0 3 4) 3).getD 1 0,
        (gaussian_profile (1 / 10) (linspace 0 3 4) 3).getD 2 0]] ∧
    (gaussian_profile (1 / 10) (linspace 0 3 4) 3).getD 2 0 <
      (gaussian_profile (1 / 10) (linspace 0 3 4) 3).getD 3 0 ∧
    searchsorted (linspace 0 3 4) 3 = 3 := by
  refine ⟨?_, ?_, searchsorted_four⟩
  · have hlv : build_levels [⟨some 3, some 1, some 0, some 0, some 1, some 1⟩] = [(0, 1)] := by
      rfl
    have hI : calculate_intensity 10000 0 1 1 1 = 1 := by
      simp [calculate_intensity]
    rw [simulate]
    simp only [List.isEmpty_cons, Bool.false_eq_true, if_false, hlv, ite_false]
    simp only [List.map_cons, List.map_nil, partition_function_single]
    rw [temp_pass]
    simp only [List.foldl_cons, List.foldl_nil]
    rw [line_step]
    simp only [hI, searchsorted_four, one_mul, List.map_id]
    norm_num
    rw [add_profile]
    simp only [gaussian_profile_four, List.length_cons, List.length_nil]
    norm_num
    simp only [show List.replicate 4 (0 : ℝ) = [0, 0, 0, 0] from rfl, List.mapIdx_cons,
      List.mapIdx_nil]
    norm_num
  · rw [gaussian_profile_four]
    simp only [List.getD_cons_succ, List.getD_cons_zero]
    have hD : (0 : ℝ) < 1 / 10 * Real.sqrt (2 * Real.pi) := by positivity
    have he : Real.exp (-50) < Real.exp 0 := by
      rw [Real.exp_lt_exp]
      norm_num
    exact div_lt_div_of_pos_right he hD

/-- Mapping tail over the lists never increases the total number of entries. -/
theorem totalLen_tail_le {α : Type} (ls : List (List α)) :
    totalLen (ls.map List.tail) ≤ totalLen ls := by
  induction ls with
  | nil => simp [totalLen]
  | cons a rest ih =>
      simp only [totalLen, List.map_cons, List.sum_cons] at *
      have ha : a.tail.length ≤ a.length := by cases a <;> simp
      omega

/-- Mapping tail strictly decreases the total when some list is nonempty. -/
theorem totalLen_tail_lt {α : Type} (ls : List (List α))
    (h : ∃ l ∈ ls, l ≠ []) : totalLen (ls.map List.tail) < totalLen ls := by
  induction ls with
  | nil => simp at h
  | cons a rest ih =>
      simp only [totalLen, List.map_cons, List.sum_cons]
      rcases h with ⟨l, hl, hne⟩
      rcases List.mem_cons.mp hl with rfl | hmem
      · have h1 : l.tail.length < l.length := by
          cases l with
          | nil => exact absurd rfl hne
          | cons x xs => simp
        have h2 := totalLen_tail_le rest
        simp only [totalLen] at h2
        omega
      · have h1 := ih ⟨l, hmem, hne⟩
        simp only [totalLen] at h1
        have h3 : a.tail.length ≤ a.length := by cases a <;> simp
        omega

/-- A flatten is a permutation of the heads of its lists followed by the
flatten of their tails. -/
theorem flatten_perm_heads_tails {α : Type} (ls : List (List α)) :
    ls.flatten.Perm (ls.filterMap List.head? ++ (ls.map List.tail).flatten) := by
  induction ls with
  | nil => simp
  | cons a rest ih =>
      cases a with
      | nil =>
          simpa using ih
      | cons x xs =>
          simp only [List.flatten_cons, List.filterMap_cons, List.head?_cons, List.map_cons,
            List.tail_cons, List.cons_append]
          refine List.Perm.cons x ?_
          refine (List.Perm.append_left xs ih).trans ?_
          rw [← List.append_assoc, ← List.append_assoc]
          exact List.Perm.append_right _ List.perm_append_comm

/-- One totalLen's worth of fuel lets the round-robin interleave emit a
permutation of the flatten. -/
theorem round_robin_fuel_perm {α : Type} :
    ∀ (n : ℕ) (ls : List (List α)), totalLen ls ≤ n →
      (round_robin_fuel n ls).Perm ls.flatten := by
  intro n
  induction n with
  | zero =>
      intro ls h
      have hlen : ls.flatten.length = 0 := by
        rw [List.length_flatten]
        simpa [totalLen] using h
      rw [List.length_eq_zero.mp hlen]
      simp [round_robin_fuel]
  | succ n ih =>
      intro ls h
      simp only [round_robin_fuel]
      by_cases hall : ls.all List.isEmpty = true
      · simp only [hall, if_true]
        have hflat : ls.flatten = [] := by
          apply List.length_eq_zero.mp
          rw [List.length_flatten]
          apply List.sum_eq_zero
          intro x hx
          simp only [List.mem_map] at hx
          obtain ⟨l, hl, rfl⟩ := hx
          have := List.all_eq_true.mp hall l hl
          simpa [List.isEmpty_iff, List.length_eq_zero] using this
        rw [hflat]
      · simp only [hall, if_false]
        have hex : ∃ l ∈ ls, l ≠ [] := by
          simp only [List.all_eq_true] at hall
          push_neg at hall
          obtain ⟨l, hl, hne⟩ := hall
          exact ⟨l, hl, by simpa [List.isEmpty_iff] using hne⟩
        have hlt := totalLen_tail_lt ls hex
        have hperm := ih (ls.map List.tail) (by omega)
        exact (List.Perm.append_left _ hperm).trans (flatten_perm_heads_tails ls).symm

/-- The round-robin interleave is a permutation of the flatten of its input
lists: it emits exactly the scheduled pairs, reordered. -/
theorem round_robin_perm {α : Type} (ls : List (List α)) :
    (round_robin ls).Perm ls.flatten :=
  round_robin_fuel_perm (totalLen ls) ls le_rfl

/-- The qualifying density pool is nonempty whenever the candidate range is:
either the filter keeps something or the fallback restores the full range. -/
theorem valid_densities_ne_nil (densities dEs : List ℚ) (T : ℚ)
    (hdens : densities ≠ []) : valid_densities densities dEs T ≠ [] := by
  simp only [valid_densities]
  split
  · exact hdens
  · next h => simpa [List.isEmpty_iff] using h

/-- The selected pool size is positive for a nonempty candidate range. -/
theorem pool_size_pos (densities dEs : List ℚ) (T : ℚ)
    (hdens : densities ≠ []) : 0 < pool_size densities dEs T := by
  have hv := valid_densities_ne_nil densities dEs T hdens
  have hlen : 0 < (valid_densities densities dEs T).length := List.length_pos.mpr hv
  simp only [pool_size]
  rw [if_neg (by omega)]
  omega

/-- The selected density list always reaches the per-temperature quota. -/
theorem selected_densities_length (densities dEs : List ℚ)
    (choose chooseRep : List ℚ → ℕ → List ℚ) (T : ℚ) (n_i : ℕ)
    (hdens : densities ≠ [])
    (hc : ∀ pool k, pool ≠ [] → (choose pool k).length = k)
    (hcr : ∀ pool k, pool ≠ [] → (chooseRep pool k).length = k) :
    n_i ≤ (selected_densities densities dEs choose chooseRep T n_i).length := by
  have hv := valid_densities_ne_nil densities dEs T hdens
  have hsel : (choose (valid_densities densities dEs T) (pool_size densities dEs T)).length =
      pool_size densities dEs T := hc _ _ hv
  have hpos := pool_size_pos densities dEs T hdens
  simp only [selected_densities]
  split
  · next hlt =>
      have hselne : choose (valid_densities densities dEs T) (pool_size densities dEs T) ≠ [] := by
        intro hnil
        rw [hnil] at hsel
        simp only [List.length_nil] at hsel
        omega
      rw [List.length_append, hcr _ _ hselne]
      omega
  · next hge => omega

/-- Each per-temperature list has exactly the quota many pairs. -/
theorem per_temp_params_length (N m : ℕ) (densities dEs : List ℚ)
    (choose chooseRep : List ℚ → ℕ → List ℚ) (i : ℕ) (T : ℚ)
    (hdens : densities ≠ [])
    (hc : ∀ pool k, pool ≠ [] → (choose pool k).length = k)
    (hcr : ∀ pool k, pool ≠ [] → (chooseRep pool k).length = k) :
    (per_temp_params N m densities dEs choose chooseRep i T).length = quota N m i := by
  simp only [per_temp_params, List.length_map, List.length_take]
  have h := selected_densities_length densities dEs choose chooseRep T (quota N m i) hdens hc hcr
  omega

/-- Every pair of a per-temperature list carries that temperature. -/
theorem per_temp_params_fst (N m : ℕ) (densities dEs : List ℚ)
    (choose chooseRep : List ℚ → ℕ → List ℚ) (i : ℕ) (T : ℚ) :
    ∀ p ∈ per_temp_params N m densities dEs choose chooseRep i T, p.1 = T := by
  intro p hp
  simp only [per_temp_params, List.mem_map] at hp
  obtain ⟨ne, _, rfl⟩ := hp
  rfl

/-- Counting pairs with a given first component in a list whose pairs all
carry the same first component. -/
theorem countP_const_fst (l : List (ℚ × ℚ)) (T Tq : ℚ) (hall : ∀ p ∈ l, p.1 = T) :
    l.countP (fun p => decide (p.1 = Tq)) = if T = Tq then l.length else 0 := by
  induction l with
  | nil => simp
  | cons p rest ih =>
      have hp : p.1 = T := hall p (List.mem_cons_self p rest)
      rw [List.countP_cons, ih (fun q hq => hall q (List.mem_cons_of_mem _ hq))]
      by_cases hT : T = Tq
      · subst hT
        simp [hp]
      · simp [hp, hT]

/-- The total number of scheduled pairs across the per-temperature lists is
the sum of the quotas, indexed from the starting position. -/
theorem per_temp_lists_total (N m : ℕ) (densities dEs : List ℚ)
    (choose chooseRep : List ℚ → ℕ → List ℚ)
    (hdens : densities ≠ [])
    (hc : ∀ pool k, pool ≠ [] → (choose pool k).length = k)
    (hcr : ∀ pool k, pool ≠ [] → (chooseRep pool k).length = k) :
    ∀ (temps : List ℚ) (i : ℕ),
      totalLen (per_temp_lists N m densities dEs choose chooseRep i temps) =
        ((List.range temps.length).map (fun j => quota N m (i + j))).sum := by
  intro temps
  induction temps with
  | nil => intro i; simp [per_temp_lists, totalLen]
  | cons T rest ih =>
      intro i
      simp only [per_temp_lists, totalLen, List.map_cons, List.sum_cons]
      rw [per_temp_params_length N m densities dEs choose chooseRep i T hdens hc hcr]
      have hrest := ih (i + 1)
      simp only [totalLen] at hrest
      rw [hrest, List.length_cons, List.range_succ_eq_map, List.map_cons, List.sum_cons,
        List.map_map]
      have e1 : quota N m i = quota N m (i + 0) := by rw [Nat.add_zero]
      have e2 : (fun j => quota N m (i + 1 + j)) =
          ((fun j => quota N m (i + j)) ∘ Nat.succ) := by
        funext j
        simp only [Function.comp]
        congr 1
        omega
      rw [e1, e2]

/-- The sum of the first k per-index quotas in closed form. -/
theorem range_quota_sum (N m : ℕ) :
    ∀ k : ℕ, ((List.range k).map (fun j => quota N m j)).sum =
      k * (N / m) + min k (N % m) := by
  intro k
  induction k with
  | zero => simp
  | succ k ih =>
      rw [List.range_succ, List.map_append, List.sum_append, ih]
      simp only [List.map_cons, List.map_nil, List.sum_cons, List.sum_nil, Nat.add_zero]
      rw [Nat.succ_mul]
      unfold quota
      have hgen : ∀ a b r : ℕ, a + min k r + (b + if k < r then 1 else 0) =
          a + b + min (k + 1) r := by
        intro a b r
        by_cases hk : k < r
        · rw [if_pos hk]
          omega
        · rw [if_neg hk]
          omega
      exact hgen (k * (N / m)) (N / m) (N % m)

/-- Summing the quota over all m temperature indices reproduces the requested
total sample count. -/
theorem range_quota_sum_full (N m : ℕ) (hm : 0 < m) :
    ((List.range m).map (fun j => quota N m j)).sum = N := by
  rw [range_quota_sum]
  have h1 := Nat.div_add_mod N m
  have h2 := Nat.mod_lt N hm
  have hmin : min m (N % m) = N % m := by omega
  rw [hmin]
  exact h1

/-- Every scheduled pair in the interleaved lists carries one of the
configured temperatures. -/
theorem per_temp_lists_mem_fst (N m : ℕ) (densities dEs : List ℚ)
    (choose chooseRep : List ℚ → ℕ → List ℚ) :
    ∀ (temps : List ℚ) (i : ℕ) (p : ℚ × ℚ),
      p ∈ (per_temp_lists N m densities dEs choose chooseRep i temps).flatten →
        p.1 ∈ temps := by
  intro temps
  induction temps with
  | nil => intro i p hp; simp [per_temp_lists] at hp
  | cons T rest ih =>
      intro i p hp
      simp only [per_temp_lists, List.flatten_cons, List.mem_append] at hp
      rcases hp with hp | hp
      · have hT := per_temp_params_fst N m densities dEs choose chooseRep i T p hp
        rw [hT]
        exact List.mem_cons_self T rest
      · exact List.mem_cons_of_mem T (ih (i + 1) p hp)

/-- Counting the pairs of one configured temperature across the interleaved
lists yields exactly that temperature's quota. -/
theorem per_temp_lists_countP (N m : ℕ) (densities dEs : List ℚ)
    (choose chooseRep : List ℚ → ℕ → List ℚ)
    (hdens : densities ≠ [])
    (hc : ∀ pool k, pool ≠ [] → (choose pool k).length = k)
    (hcr : ∀ pool k, pool ≠ [] → (chooseRep pool k).length = k) :
    ∀ (temps : List ℚ), temps.Nodup → ∀ (i k : ℕ) (hk : k < temps.length),
      ((per_temp_lists N m densities dEs choose chooseRep i temps).flatten).countP
          (fun p => decide (p.1 = temps.get ⟨k, hk⟩)) = quota N m (i + k) := by
  intro temps
  induction temps with
  | nil => intro _ i k hk; simp at hk
  | cons T rest ih =>
      intro hnd i k hk
      have hndr : rest.Nodup := (List.nodup_cons.mp hnd).2
      have hTnotin : T ∉ rest := (List.nodup_cons.mp hnd).1
      simp only [per_temp_lists, List.flatten_cons, List.countP_append]
      cases k with
      | zero =>
          have hget : (T :: rest).get ⟨0, hk⟩ = T := rfl
          rw [hget,
            countP_const_fst _ T T (per_temp_params_fst N m densities dEs choose chooseRep i T),
            if_pos rfl,
            per_temp_params_length N m densities dEs choose chooseRep i T hdens hc hcr]
          have h2 : ((per_temp_lists N m densities dEs choose chooseRep (i + 1) rest).flatten).countP
              (fun p => decide (p.1 = T)) = 0 := by
            apply List.countP_eq_zero.mpr
            intro p hp
            have hmem := per_temp_lists_mem_fst N m densities dEs choose chooseRep rest (i + 1) p hp
            simp only [decide_eq_true_eq]
            intro hpT
            rw [hpT] at hmem
            exact hTnotin hmem
          rw [h2, Nat.add_zero, Nat.add_zero]
      | succ k2 =>
          have hk2 : k2 < rest.length := by
            simp only [List.length_cons] at hk
            omega
          have hget : (T :: rest).get ⟨k2 + 1, hk⟩ = rest.get ⟨k2, hk2⟩ := rfl
          rw [hget]
          have h1 : (per_temp_params N m densities dEs choose chooseRep i T).countP
              (fun p => decide (p.1 = rest.get ⟨k2, hk2⟩)) = 0 := by
            rw [countP_const_fst _ T _ (per_temp_params_fst N m densities dEs choose chooseRep i T)]
            rw [if_neg]
            intro hTeq
            have hmem : rest.get ⟨k2, hk2⟩ ∈ rest := List.get_mem rest k2 hk2
            rw [← hTeq] at hmem
            exact hTnotin hmem
          rw [h1, ih hndr (i + 1) k2 hk2, Nat.zero_add]
          congr 1
          omega

/-- The length fixup is the identity when exactly the target count was
produced. -/
theorem adjust_count_exact (N : ℕ) (padIdx : ℕ → ℕ) (l : List (ℚ × ℚ))
    (h : l.length = N) : adjust_count N padIdx l = l := by
  unfold adjust_count
  rw [if_neg (by omega), ← h, List.take_length]

/-- Each per-index quota is within one of the exact fractional share. -/
theorem quota_near (N m i : ℕ) (hm : 0 < m) :
    |(quota N m i : ℚ) - (N : ℚ) / (m : ℚ)| ≤ 1 := by
  have hm2 : (0 : ℚ) < (m : ℚ) := by exact_mod_cast hm
  have hdm : (N : ℚ) = (m : ℚ) * ((N / m : ℕ) : ℚ) + ((N % m : ℕ) : ℚ) := by
    exact_mod_cast (Nat.div_add_mod N m).symm
  have hr0 : (0 : ℚ) ≤ ((N % m : ℕ) : ℚ) := by positivity
  have hr1 : ((N % m : ℕ) : ℚ) < (m : ℚ) := by exact_mod_cast Nat.mod_lt N hm
  have hNm : (N : ℚ) / (m : ℚ) = ((N / m : ℕ) : ℚ) + ((N % m : ℕ) : ℚ) / (m : ℚ) := by
    rw [hdm]
    field_simp
    ring
  have hdiv0 : (0 : ℚ) ≤ ((N % m : ℕ) : ℚ) / (m : ℚ) := by positivity
  have hdiv1 : ((N % m : ℕ) : ℚ) / (m : ℚ) < 1 := by
    rw [div_lt_one hm2]
    exact hr1
  unfold quota
  by_cases hi : i < N % m
  · rw [if_pos hi, hNm]
    push_cast
    rw [abs_le]
    constructor <;> linarith
  · rw [if_neg hi, hNm]
    push_cast
    rw [abs_le]
    constructor <;> linarith

/-- C8: the scheduler returns exactly the configured total number of
(temperature, electron_density) pairs; each configured temperature appears
exactly quota-many times, where the quota is the even split with the
remainder going to the first temperatures; and every quota is within one of
the exact share N/m. -/
theorem sample_params_quota (N : ℕ) (temps densities dEs : List ℚ)
    (choose chooseRep : List ℚ → ℕ → List ℚ) (padIdx : ℕ → ℕ)
    (htemps : temps ≠ []) (hnd : temps.Nodup) (hdens : densities ≠ [])
    (hc : ∀ pool k, pool ≠ [] → (choose pool k).length = k)
    (hcr : ∀ pool k, pool ≠ [] → (chooseRep pool k).length = k) :
    (generate_sample_params N temps densities dEs choose chooseRep padIdx).length = N ∧
    ∀ (k : ℕ) (hk : k < temps.length),
      (generate_sample_params N temps densities dEs choose chooseRep padIdx).countP
          (fun p => decide (p.1 = temps.get ⟨k, hk⟩)) = quota N temps.length k ∧
      |(quota N temps.length k : ℚ) - (N : ℚ) / (temps.length : ℚ)| ≤ 1 := by
  have hm : 0 < temps.length := List.length_pos.mpr htemps
  have hperm := round_robin_perm
    (per_temp_lists N temps.length densities dEs choose chooseRep 0 temps)
  have hlen : (round_robin
      (per_temp_lists N temps.length densities dEs choose chooseRep 0 temps)).length = N := by
    rw [hperm.length_eq, List.length_flatten]
    have htot := per_temp_lists_total N temps.length densities dEs choose chooseRep
      hdens hc hcr temps 0
    simp only [totalLen] at htot
    rw [htot]
    have hzero : (fun j => quota N temps.length (0 + j)) =
        (fun j => quota N temps.length j) := by
      funext j
      rw [Nat.zero_add]
    rw [hzero, range_quota_sum_full N temps.length hm]
  have hres : generate_sample_params N temps densities dEs choose chooseRep padIdx =
      round_robin (per_temp_lists N temps.length densities dEs choose chooseRep 0 temps) := by
    unfold generate_sample_params
    exact adjust_count_exact N padIdx _ hlen
  refine ⟨by rw [hres]; exact hlen, ?_⟩
  intro k hk
  refine ⟨?_, quota_near N temps.length k hm⟩
  rw [hres, hperm.countP_eq,
    per_temp_lists_countP N temps.length densities dEs choose chooseRep hdens hc hcr
      temps hnd 0 k hk]
  congr 1
  omega

set_option maxHeartbeats 1000000 in
/-- Witness: three samples over the two temperatures 6000 and 8000 with a
single candidate density, using take-based draw oracles of the right length. -/
theorem sample_params_quota_witness :
    (generate_sample_params 3 [6000, 8000] [1000000000000000] [4]
        (fun pool k => (pool ++ List.replicate k 0).take k)
        (fun pool k => (pool ++ List.replicate k 0).take k)
        (fun _ => 0)).length = 3 := by
  have h := sample_params_quota 3 [6000, 8000] [1000000000000000] [4]
    (fun pool k => (pool ++ List.replicate k 0).take k)
    (fun pool k => (pool ++ List.replicate k 0).take k)
    (fun _ => 0)
    (by simp) (by norm_num [List.nodup_cons]) (by simp)
    (fun pool k _ => by
      rw [List.length_take, List.length_append, List.length_replicate]
      omega)
    (fun pool k _ => by
      rw [List.length_take, List.length_append, List.length_replicate]
      omega)
  exact h.1

end Simulasi
